import Mathlib

/-!
# Verification of saferenv's rule builder and filter engine

This file is a shallow embedding of the core of `saferenv` (`src/rules.rs` and
`src/main.rs`): the rule-set builder `load_rules` and the filter engine
`apply_env_var_filters`, together with theorems checking the natural-language
specification against that code.

The Rust code matches rule patterns with the `regex` crate, always building the
regex via `RegexBuilder::new(pattern).case_insensitive(true).build()`. We embed
the fragment of the `regex` crate's syntax and search semantics that the
program's patterns (built-in defaults plus user names interpolated into
`^NAME$`) exercise: literal characters, `.`, grouping `(...)` with alternation
`|`, the postfix optional `?`, and the anchors `^` (start of haystack) and `$`
(end of haystack).  `is_match` is substring search: the pattern may match
starting at any position.  Case-insensitivity is modelled by comparing both
sides through `Char.toLower`, matching the crate's behaviour on the ASCII
patterns in play.  Repetition operators and character classes, which no pattern
of this program uses, are rejected by the embedded compiler.

The process environment is modelled as an ordered association list of
(key, value) pairs; a key is either valid text (`OsKey.utf8`) or an
undecodable OS string (`OsKey.nonUtf8`, identified by a tag), mirroring
`std::env::vars_os` / `OsString::into_string`.  `env::set_var` replaces the
value of the first entry with the given key (keeping its position) or appends,
and `env::remove_var` deletes every entry with the key, as on the glibc
platforms the tool targets.  A `panic!` (the `unwrap()` on a pattern that
fails to compile) is modelled by the outcome `FilterOutcome.panic` carrying
the environment at the moment of the panic; `FilterOutcome.ok` means the
filtering loop ran to completion (or exited via its `break` statement) and
control continued to the exec/print step.
-/

/-- Abstract syntax of the embedded regex fragment. -/
inductive Regex where
  | emp
  | char (c : Char)
  | any
  | bol
  | eol
  | seq (r1 r2 : Regex)
  | alt (r1 r2 : Regex)
  | opt (r : Regex)
deriving DecidableEq

/-- All ways the regex can match a prefix of `s`.  Each result is the state
after the match: whether we are still at the start of the haystack, and the
remaining characters.  `a` records whether the current position is the start
of the haystack (for `^`); `eol` requires the remainder to be empty. -/
def Regex.run : Regex → Bool → List Char → List (Bool × List Char)
  | Regex.emp, a, s => [(a, s)]
  | Regex.char c, _, s =>
    match s with
    | [] => []
    | x :: xs => if x.toLower = c.toLower then [(false, xs)] else []
  | Regex.any, _, s =>
    match s with
    | [] => []
    | _ :: xs => [(false, xs)]
  | Regex.bol, a, s => if a then [(a, s)] else []
  | Regex.eol, a, s =>
    match s with
    | [] => [(a, [])]
    | _ :: _ => []
  | Regex.seq r1 r2, a, s => (Regex.run r1 a s).flatMap (fun p => Regex.run r2 p.1 p.2)
  | Regex.alt r1 r2, a, s => Regex.run r1 a s ++ Regex.run r2 a s
  | Regex.opt r, a, s => (a, s) :: Regex.run r a s

/-- Substring search: try to match at the current position, else advance. -/
def isMatchFrom (r : Regex) : Bool → List Char → Bool
  | a, [] => !(Regex.run r a []).isEmpty
  | a, x :: xs => !(Regex.run r a (x :: xs)).isEmpty || isMatchFrom r false xs

/-- The `is_match` method of the `regex` crate (with `case_insensitive(true)`):
does the pattern match anywhere in the haystack? -/
def Regex.isMatch (r : Regex) (s : String) : Bool :=
  isMatchFrom r true s.data

/-- Metacharacters of the `regex` crate outside the embedded fragment
(repetitions, classes, escapes); patterns using them are not compiled. -/
def unsupportedMeta (c : Char) : Bool :=
  c = '*' || c = '+' || c = Char.ofNat 91 || c = Char.ofNat 93 ||
    c = Char.ofNat 123 || c = Char.ofNat 125 || c = Char.ofNat 92

/-- Parser state for one (possibly parenthesised) group: the alternation
branches completed so far and the atoms of the current branch, both in
reverse order. -/
structure PGroup where
  branches : List Regex
  atoms : List Regex

/-- Close the current concatenation (atoms are stored reversed). -/
def closeConcat (g : PGroup) : Regex :=
  g.atoms.foldl (fun r a => Regex.seq a r) Regex.emp

/-- Close a whole group: fold its branches into a left-nested alternation. -/
def closeGroup (g : PGroup) : Regex :=
  match g.branches.reverse with
  | [] => closeConcat g
  | b :: bs => (bs ++ [closeConcat g]).foldl Regex.alt b

/-- One-pass regex parser over the pattern's characters, maintaining a stack
of enclosing groups. -/
def parseStep : List Char → PGroup → List PGroup → Except String Regex
  | [], g, [] => Except.ok (closeGroup g)
  | [], _, _ :: _ => Except.error "unclosed group"
  | c :: rest, g, stk =>
    if c = '(' then parseStep rest ⟨[], []⟩ (g :: stk)
    else if c = ')' then
      match stk with
      | [] => Except.error "unopened group"
      | g' :: stk' => parseStep rest ⟨g'.branches, closeGroup g :: g'.atoms⟩ stk'
    else if c = '|' then parseStep rest ⟨closeConcat g :: g.branches, []⟩ stk
    else if c = '?' then
      match g.atoms with
      | [] => Except.error "repetition operator missing expression"
      | a :: as => parseStep rest ⟨g.branches, Regex.opt a :: as⟩ stk
    else if c = '.' then parseStep rest ⟨g.branches, Regex.any :: g.atoms⟩ stk
    else if c = '^' then parseStep rest ⟨g.branches, Regex.bol :: g.atoms⟩ stk
    else if c = '$' then parseStep rest ⟨g.branches, Regex.eol :: g.atoms⟩ stk
    else if unsupportedMeta c then Except.error "unsupported metacharacter"
    else parseStep rest ⟨g.branches, Regex.char c :: g.atoms⟩ stk

/-- Embeds `RegexBuilder::new(pattern).case_insensitive(true).build()`: compile a
pattern string, or fail on malformed syntax. -/
def compileRegex (pat : String) : Except String Regex :=
  parseStep pat.data ⟨[], []⟩ []

/-- Actions a matching rule can take (src/rules.rs). -/
inductive RuleAction where
  | Keep
  | Redact
  | Unset
deriving DecidableEq

/-- A filtering rule (src/rules.rs): a diagnostic label, a pattern matched
case-insensitively against the variable name, and an action. -/
structure Rule where
  name : String
  pattern : String
  action : RuleAction
deriving DecidableEq

/-- The rule pushed for each `--keep NAME` argument. -/
def mkKeepRule (key : String) : Rule :=
  ⟨"cli_explicit_keep", "^" ++ key ++ "$", RuleAction.Keep⟩

/-- The rule pushed for each `--unset NAME` argument. -/
def mkUnsetRule (key : String) : Rule :=
  ⟨"cli_explicit_unset", "^" ++ key ++ "$", RuleAction.Unset⟩

/-- The fixed built-in default rules of `load_rules` (src/rules.rs), in
source order. -/
def defaultRules : List Rule :=
  [⟨"generic_secret", "SECRETS?$", RuleAction.Redact⟩,
   ⟨"generic_secret_token", "TOKENS?$", RuleAction.Redact⟩,
   ⟨"generic_secret_key", "KEYS?$", RuleAction.Redact⟩,
   ⟨"generic_password", "PASSWORDS?$", RuleAction.Redact⟩,
   ⟨"generic_password_short", "(_|-)PW$", RuleAction.Redact⟩]

/-- Embeds `load_rules` (src/rules.rs): push one Keep rule per `--keep` name, then
one Unset rule per `--unset` name, then the built-in default rules. -/
def load_rules (keep : List String) (unset : List String) : List Rule :=
  let rules : List Rule := []
  let rules := keep.foldl (fun acc key => acc ++ [mkKeepRule key]) rules
  let rules := unset.foldl (fun acc key => acc ++ [mkUnsetRule key]) rules
  rules ++ defaultRules

/-- Does a rule's pattern compile? (`RegexBuilder::build` succeeding
where the source calls `.unwrap()`.) -/
def patternOk (r : Rule) : Bool :=
  match compileRegex r.pattern with
  | Except.ok _ => true
  | Except.error _ => false

/-- Does a rule's (compilable) pattern match the key, case-insensitively? -/
def ruleMatches (r : Rule) (key : String) : Bool :=
  match compileRegex r.pattern with
  | Except.ok re => re.isMatch key
  | Except.error _ => false

/-- The first rule in the list whose pattern matches the key. -/
def firstMatchingRule (rules : List Rule) (key : String) : Option Rule :=
  rules.find? (fun r => ruleMatches r key)

/-- An environment-variable name as delivered by `env::vars_os`: either
valid text, or an undecodable OS string identified by a tag
(`OsString::into_string` fails on it). -/
inductive OsKey where
  | utf8 (s : String)
  | nonUtf8 (id : Nat)
deriving DecidableEq

/-- Is the key valid text? -/
def OsKey.isUtf8 : OsKey → Bool
  | OsKey.utf8 _ => true
  | OsKey.nonUtf8 _ => false

/-- The process environment: an ordered association list of (name, value)
pairs, as enumerated by `env::vars_os`. -/
abbrev Env := List (OsKey × String)

/-- Embeds `env::remove_var` / `unsetenv`: delete every entry with this name. -/
def envRemove (k : String) : Env → Env
  | [] => []
  | p :: rest =>
    if p.1 = OsKey.utf8 k then envRemove k rest else p :: envRemove k rest

/-- Embeds `env::set_var` / `setenv`: replace the value of the first entry with
this name, keeping its position, or append a new entry. -/
def envSet (k : String) (v : String) : Env → Env
  | [] => [(OsKey.utf8 k, v)]
  | (k0, v0) :: rest =>
    if k0 = OsKey.utf8 k then (k0, v) :: rest
    else (k0, v0) :: envSet k v rest

/-- Look up the first value bound to a name (`env::var`). -/
def envLookup (k : OsKey) : Env → Option String
  | [] => none
  | (k0, v) :: rest => if k0 = k then some v else envLookup k rest

/-- The entries of the environment carrying exactly this (text) name. -/
def filterKey (n : String) : Env → Env
  | [] => []
  | p :: rest =>
    if p.1 = OsKey.utf8 n then p :: filterKey n rest else filterKey n rest

/-- Engine configuration (src/main.rs `Config`): the rule list and the
value substituted by the `Redact` action. -/
structure Config where
  rules : List Rule
  redact_value : String

/-- Result of running `apply_env_var_filters`: either the loop finished (or
exited via its `break`) and control flowed on, or an `unwrap()` on a pattern
that failed to compile panicked; both carry the environment at that moment. -/
inductive FilterOutcome where
  | ok (env : Env)
  | panic (env : Env)
deriving DecidableEq

/-- The environment held at the end of the outcome. -/
def FilterOutcome.env : FilterOutcome → Env
  | FilterOutcome.ok e => e
  | FilterOutcome.panic e => e

/-- The effect of one matched rule's action on the environment
(the `match rule.action` arms in src/main.rs). -/
def applyAction (a : RuleAction) (ignore_environment : Bool) (redact : String)
    (key : String) (env : Env) : Env :=
  match a with
  | RuleAction.Redact =>
    if ignore_environment then envRemove key env else envSet key redact env
  | RuleAction.Unset => envRemove key env
  | RuleAction.Keep => env

/-- The labelled block `'rule_matching` of `apply_env_var_filters`: walk the
rules in order for one decoded key; compile each pattern as it is reached
(`none` = the `unwrap()` panic on a malformed pattern); act on the first
match; if no rule matched, remove the key when `ignore_environment` is set. -/
def processKey (rules : List Rule) (redact : String) (ignore_environment : Bool)
    (key : String) (env : Env) : Option Env :=
  match rules with
  | [] => some (if ignore_environment then envRemove key env else env)
  | rule :: rest =>
    match compileRegex rule.pattern with
    | Except.error _ => none
    | Except.ok re =>
      if re.isMatch key then
        some (applyAction rule.action ignore_environment redact key env)
      else processKey rest redact ignore_environment key env

/-- The `for (ref key_os, _) in env::vars_os()` loop of
`apply_env_var_filters`: iterate over the snapshot taken at entry, threading
the current environment.  A key that fails to decode executes `break`,
ending the whole loop (the environment so far is kept and control flows
on); a pattern that fails to compile panics. -/
def filterLoop (rules : List Rule) (redact : String) (ignore_environment : Bool) :
    Env → Env → FilterOutcome
  | [], cur => FilterOutcome.ok cur
  | (OsKey.nonUtf8 _, _) :: _, cur => FilterOutcome.ok cur
  | (OsKey.utf8 key, _) :: rest, cur =>
    match processKey rules redact ignore_environment key cur with
    | none => FilterOutcome.panic cur
    | some cur2 => filterLoop rules redact ignore_environment rest cur2

/-- Embeds `apply_env_var_filters` (src/main.rs): filter the environment `env`
against the configured rules.  `env::vars_os()` yields a snapshot of the
environment at the time of the call, so the iteration list is `env` itself. -/
def apply_env_var_filters (config : Config) (ignore_environment : Bool)
    (env : Env) : FilterOutcome :=
  filterLoop config.rules config.redact_value ignore_environment env env

/-! ## Specification-side definitions

These definitions follow the spec's words rather than the source; the
theorems below compare the source embedding against them. -/

/-- Modelled from the spec's per-key dispatch (§4.2): the first rule whose
pattern matches the key decides its fate — `Keep` leaves it unchanged,
`Unset` removes it, `Redact` removes it under `ignore_environment` and
otherwise overwrites its value with the redaction value; with no matching
rule the key is removed under `ignore_environment` and otherwise kept. -/
def specProcessKey (rules : List Rule) (redact : String) (ignore_environment : Bool)
    (key : String) (env : Env) : Env :=
  match firstMatchingRule rules key with
  | some r =>
    match r.action with
    | RuleAction.Keep => env
    | RuleAction.Unset => envRemove key env
    | RuleAction.Redact =>
      if ignore_environment then envRemove key env else envSet key redact env
  | none => if ignore_environment then envRemove key env else env

/-- One snapshot entry's effect, with the decision taken from the rules and
the snapshot name alone (used to state that mutations made for one variable
never influence how another is evaluated). -/
def stepSpec (rules : List Rule) (redact : String) (ignore_environment : Bool)
    (cur : Env) (p : OsKey × String) : Env :=
  match p.1 with
  | OsKey.utf8 k => specProcessKey rules redact ignore_environment k cur
  | OsKey.nonUtf8 _ => cur

/-- The shape an anchored literal pattern `^NAME$` compiles to after the
`^`: the name's characters in sequence, then the `$` anchor. -/
def litTail : List Char → Regex
  | [] => Regex.seq Regex.eol Regex.emp
  | c :: cs => Regex.seq (Regex.char c) (litTail cs)

/-- The compiled form of `^NAME$` for a literal NAME. -/
def exactWord (cs : List Char) : Regex :=
  Regex.seq Regex.bol (litTail cs)

/-- The compiled form of the default suffix patterns `WORDc?$`. -/
def suffixWord : List Char → Char → Regex
  | [], c => Regex.seq (Regex.opt (Regex.char c)) (Regex.seq Regex.eol Regex.emp)
  | a :: as, c => Regex.seq (Regex.char a) (suffixWord as c)

/-- Does `s` end with `w`, comparing case-insensitively? -/
def endsWithCI (s w : List Char) : Bool :=
  if s.map Char.toLower = w.map Char.toLower then true
  else
    match s with
    | [] => false
    | _ :: xs => endsWithCI xs w

/-- A character the embedded regex compiler treats as a literal. -/
def isLitChar (c : Char) : Bool :=
  !(c = '(' || c = ')' || c = '|' || c = '?' || c = '.' || c = '^' || c = '$' ||
    unsupportedMeta c)

/-- A name free of regex metacharacters: interpolated into `^NAME$` it
matches exactly itself (case-insensitively). -/
def isLiteralName (n : String) : Bool :=
  n.data.all isLitChar

/-! ## Helper lemmas -/

/-- Pushing elements one by one onto an accumulator is the same as appending
the mapped list. -/
lemma foldl_push_eq_map {α : Type} (f : α → Rule) :
    ∀ (l : List α) (init : List Rule),
      l.foldl (fun acc x => acc ++ [f x]) init = init ++ l.map f := by
  intro l
  induction l with
  | nil => intro init; simp
  | cons x xs ih => intro init; simp [ih]

/-- The builder produces the keep rules, then the unset rules, then the
default rules, each group in input order. -/
lemma load_rules_eq (keep unset : List String) :
    load_rules keep unset =
      keep.map mkKeepRule ++ unset.map mkUnsetRule ++ defaultRules := by
  simp [load_rules, foldl_push_eq_map]

/-- When every pattern in the rule list compiles, the per-key walk never
panics and computes exactly the spec's first-match-wins dispatch. -/
lemma processKey_eq_spec (rules : List Rule) (redact : String) (ig : Bool)
    (key : String) (env : Env) (hok : ∀ r ∈ rules, patternOk r = true) :
    processKey rules redact ig key env = some (specProcessKey rules redact ig key env) := by
  induction rules with
  | nil => simp [processKey, specProcessKey, firstMatchingRule]
  | cons r rest ih =>
    have hr : patternOk r = true := hok r (by simp)
    unfold patternOk at hr
    cases hre : compileRegex r.pattern with
    | error e => rw [hre] at hr; simp at hr
    | ok re =>
      have hm : ruleMatches r key = re.isMatch key := by
        unfold ruleMatches; rw [hre]
      by_cases h : re.isMatch key = true
      · simp only [processKey, hre, h, if_pos rfl, specProcessKey, firstMatchingRule,
          List.find?_cons, hm, h]
        cases r.action <;> simp [applyAction]
      · have h' : re.isMatch key = false := by
          cases hb : re.isMatch key
          · rfl
          · exact absurd hb h
        simp only [processKey, hre, h', Bool.false_eq_true, if_false, specProcessKey,
          firstMatchingRule, List.find?_cons, hm]
        rw [ih (fun r hr => hok r (by simp [hr]))]
        simp [specProcessKey, firstMatchingRule]

/-- Any single processed key changes the environment in one of three ways:
not at all, removal of that key, or overwriting that key's value with the
redaction value (or the walk panics, leaving the environment as it was). -/
lemma processKey_shape (rules : List Rule) (redact : String) (ig : Bool)
    (key : String) (env : Env) :
    processKey rules redact ig key env = none ∨
    processKey rules redact ig key env = some env ∨
    processKey rules redact ig key env = some (envRemove key env) ∨
    processKey rules redact ig key env = some (envSet key redact env) := by
  induction rules with
  | nil =>
    by_cases h : ig = true
    · subst h; simp [processKey]
    · simp [processKey, eq_false_of_ne_true h]
  | cons r rest ih =>
    cases hre : compileRegex r.pattern with
    | error e => simp [processKey, hre]
    | ok re =>
      by_cases h : re.isMatch key = true
      · cases ha : r.action <;>
          by_cases hig : ig = true <;>
          simp_all [processKey, hre, applyAction]
      · have h' : re.isMatch key = false := by
          cases hb : re.isMatch key
          · rfl
          · exact absurd hb h
        simpa [processKey, hre, h'] using ih

/-- Removing a name empties its lookups. -/
lemma envLookup_envRemove_self (k : String) (e : Env) :
    envLookup (OsKey.utf8 k) (envRemove k e) = none := by
  induction e with
  | nil => simp [envRemove, envLookup]
  | cons p rest ih =>
    by_cases h : p.1 = OsKey.utf8 k
    · simpa [envRemove, h] using ih
    · simpa [envRemove, envLookup, h] using ih

/-- Removing one name leaves lookups of any other key unchanged. -/
lemma envLookup_envRemove_other (k : String) (k0 : OsKey) (h : k0 ≠ OsKey.utf8 k)
    (e : Env) : envLookup k0 (envRemove k e) = envLookup k0 e := by
  induction e with
  | nil => simp [envRemove, envLookup]
  | cons p rest ih =>
    by_cases hp : p.1 = OsKey.utf8 k
    · simpa [envRemove, envLookup, hp, h.symm] using ih
    · by_cases hk : p.1 = k0 <;> simp_all [envRemove, envLookup]

/-- Setting a name makes its lookup return the new value. -/
lemma envLookup_envSet_self (k v : String) (e : Env) :
    envLookup (OsKey.utf8 k) (envSet k v e) = some v := by
  induction e with
  | nil => simp [envSet, envLookup]
  | cons p rest ih =>
    rcases p with ⟨k0, v0⟩
    by_cases h : k0 = OsKey.utf8 k
    · simp [envSet, envLookup, h]
    · simpa [envSet, envLookup, h] using ih

/-- Setting one name leaves lookups of any other key unchanged. -/
lemma envLookup_envSet_other (k v : String) (k0 : OsKey) (h : k0 ≠ OsKey.utf8 k)
    (e : Env) : envLookup k0 (envSet k v e) = envLookup k0 e := by
  induction e with
  | nil => simp [envSet, envLookup, h.symm]
  | cons p rest ih =>
    rcases p with ⟨k1, v1⟩
    by_cases h1 : k1 = OsKey.utf8 k
    · simp [envSet, envLookup, h1, h.symm]
    · by_cases hk : k1 = k0 <;> simp_all [envSet, envLookup]

/-- A pair in the environment means its key's lookup succeeds. -/
lemma envLookup_ne_none_of_mem (k : OsKey) (v : String) (e : Env)
    (h : (k, v) ∈ e) : envLookup k e ≠ none := by
  induction e with
  | nil => cases h
  | cons p rest ih =>
    rcases p with ⟨k0, v0⟩
    by_cases hk : k0 = k
    · simp [envLookup, hk]
    · rcases List.mem_cons.mp h with h1 | h1
      · exact absurd (congrArg Prod.fst h1).symm hk
      · simpa [envLookup, hk] using ih h1

/-- Removing another name does not change the entries bearing name `n`. -/
lemma filterKey_envRemove_other (n k : String) (h : k ≠ n) (e : Env) :
    filterKey n (envRemove k e) = filterKey n e := by
  induction e with
  | nil => rfl
  | cons p rest ih =>
    by_cases hp : p.1 = OsKey.utf8 k
    · have hn : ¬(p.1 = OsKey.utf8 n) := by
        rw [hp]; intro hh; exact h (by injection hh)
      simp [envRemove, filterKey, hp, hn, ih, h, h.symm]
    · by_cases hn : p.1 = OsKey.utf8 n <;>
        simp [envRemove, filterKey, hp, hn, ih, h, h.symm]

/-- Setting another name does not change the entries bearing name `n`. -/
lemma filterKey_envSet_other (n k v : String) (h : k ≠ n) (e : Env) :
    filterKey n (envSet k v e) = filterKey n e := by
  induction e with
  | nil =>
    have hn : ¬(OsKey.utf8 k = OsKey.utf8 n) := by
      intro hh; exact h (by injection hh)
    simp [envSet, filterKey, hn]
  | cons p rest ih =>
    rcases p with ⟨k1, v1⟩
    by_cases h1 : k1 = OsKey.utf8 k
    · subst h1
      have hn : ¬(OsKey.utf8 k = OsKey.utf8 n) := by
        intro hh; exact h (by injection hh)
      simp [envSet, filterKey, hn]
    · by_cases hn : k1 = OsKey.utf8 n <;>
        simp [envSet, filterKey, h1, hn, ih, h, h.symm]

/-- If processing the name `key` never mutates the environment (its first
matching rule is a Keep, or the walk panics first), then the entries bearing
`key` survive the whole filtering loop unchanged, whatever happens to the
other variables of the snapshot. -/
lemma filterLoop_frame (rules : List Rule) (rd : String) (ig : Bool) (key : String)
    (Hkey : ∀ e : Env, processKey rules rd ig key e = none ∨
      processKey rules rd ig key e = some e) :
    ∀ (snap : Env) (cur : Env),
      filterKey key ((filterLoop rules rd ig snap cur).env) = filterKey key cur := by
  intro snap
  induction snap with
  | nil => intro cur; rfl
  | cons p rest ih =>
    intro cur
    rcases p with ⟨k0, v0⟩
    cases k0 with
    | nonUtf8 i => rfl
    | utf8 k =>
      by_cases hk : k = key
      · subst hk
        rcases Hkey cur with h | h
        · simp [filterLoop, h, FilterOutcome.env]
        · simp only [filterLoop, h]
          exact ih cur
      · rcases processKey_shape rules rd ig k cur with h | h | h | h
        · simp [filterLoop, h, FilterOutcome.env]
        · simp only [filterLoop, h]; exact ih cur
        · simp only [filterLoop, h]
          rw [ih (envRemove k cur), filterKey_envRemove_other key k hk]
        · simp only [filterLoop, h]
          rw [ih (envSet k rd cur), filterKey_envSet_other key k rd hk]

/-- When every key of the snapshot decodes and every pattern compiles, the
loop runs to completion and equals the left fold of the per-key spec
dispatch over the snapshot — each key's decision depending only on the rule
list and that key's name. -/
lemma filterLoop_all_ok (rules : List Rule) (rd : String) (ig : Bool)
    (hok : ∀ r ∈ rules, patternOk r = true) :
    ∀ (snap cur : Env), (∀ p ∈ snap, p.1.isUtf8 = true) →
      filterLoop rules rd ig snap cur =
        FilterOutcome.ok (snap.foldl (stepSpec rules rd ig) cur) := by
  intro snap
  induction snap with
  | nil => intro cur _; rfl
  | cons p rest ih =>
    intro cur hutf
    rcases p with ⟨k0, v0⟩
    cases k0 with
    | nonUtf8 i =>
      have := hutf (OsKey.nonUtf8 i, v0) (by simp)
      simp [OsKey.isUtf8] at this
    | utf8 k =>
      have hpk := processKey_eq_spec rules rd ig k cur hok
      simp only [filterLoop, hpk, List.foldl_cons]
      rw [ih (specProcessKey rules rd ig k cur)
        (fun q hq => hutf q (List.mem_cons_of_mem _ hq))]
      rfl

/-- The three-state invariant carried through the loop: every name's lookup
in the current environment is unchanged from the base environment, replaced
by the redaction value, or gone — and the latter two happen only to names
the base environment actually bound. -/
lemma filterLoop_state (rules : List Rule) (rd : String) (ig : Bool) (base : Env) :
    ∀ (snap cur : Env), (∀ p ∈ snap, envLookup p.1 base ≠ none) →
      (∀ k, envLookup k cur = envLookup k base ∨
        (envLookup k cur = some rd ∧ envLookup k base ≠ none) ∨
        (envLookup k cur = none ∧ envLookup k base ≠ none)) →
      ∀ k, envLookup k ((filterLoop rules rd ig snap cur).env) = envLookup k base ∨
        (envLookup k ((filterLoop rules rd ig snap cur).env) = some rd ∧
          envLookup k base ≠ none) ∨
        (envLookup k ((filterLoop rules rd ig snap cur).env) = none ∧
          envLookup k base ≠ none) := by
  intro snap
  induction snap with
  | nil => intro cur _ hstate k; exact hstate k
  | cons p rest ih =>
    intro cur hmem hstate
    rcases p with ⟨k0, v0⟩
    cases k0 with
    | nonUtf8 i => exact hstate
    | utf8 key =>
      have hbase : envLookup (OsKey.utf8 key) base ≠ none :=
        hmem (OsKey.utf8 key, v0) (by simp)
      have hmem' : ∀ p ∈ rest, envLookup p.1 base ≠ none :=
        fun q hq => hmem q (List.mem_cons_of_mem _ hq)
      have hremove : ∀ k, envLookup k (envRemove key cur) = envLookup k base ∨
          (envLookup k (envRemove key cur) = some rd ∧ envLookup k base ≠ none) ∨
          (envLookup k (envRemove key cur) = none ∧ envLookup k base ≠ none) := by
        intro k
        by_cases hk : k = OsKey.utf8 key
        · subst hk
          exact Or.inr (Or.inr ⟨envLookup_envRemove_self key cur, hbase⟩)
        · rw [envLookup_envRemove_other key k hk cur]
          exact hstate k
      have hset : ∀ k, envLookup k (envSet key rd cur) = envLookup k base ∨
          (envLookup k (envSet key rd cur) = some rd ∧ envLookup k base ≠ none) ∨
          (envLookup k (envSet key rd cur) = none ∧ envLookup k base ≠ none) := by
        intro k
        by_cases hk : k = OsKey.utf8 key
        · subst hk
          exact Or.inr (Or.inl ⟨envLookup_envSet_self key rd cur, hbase⟩)
        · rw [envLookup_envSet_other key rd k hk cur]
          exact hstate k
      rcases processKey_shape rules rd ig key cur with h | h | h | h
      · simpa [filterLoop, h, FilterOutcome.env] using hstate
      · simpa [filterLoop, h] using ih cur hmem' hstate
      · simpa [filterLoop, h] using ih (envRemove key cur) hmem' hremove
      · simpa [filterLoop, h] using ih (envSet key rd cur) hmem' hset

/-- The body of an anchored literal pattern consumes the whole remaining
haystack and matches exactly the name, case-insensitively. -/
lemma run_litTail (cs : List Char) : ∀ (a : Bool) (s : List Char),
    Regex.run (litTail cs) a s ≠ [] ↔ s.map Char.toLower = cs.map Char.toLower := by
  induction cs with
  | nil =>
    intro a s
    cases s <;> simp [litTail, Regex.run]
  | cons c cs ih =>
    intro a s
    cases s with
    | nil => simp [litTail, Regex.run]
    | cons x xs =>
      by_cases hx : x.toLower = c.toLower
      · simp [litTail, Regex.run, hx, ih]
      · simp [litTail, Regex.run, hx]

/-- A pattern starting with `^` cannot match away from the haystack start. -/
lemma isMatchFrom_bol_false (r : Regex) : ∀ (s : List Char),
    isMatchFrom (Regex.seq Regex.bol r) false s = false := by
  intro s
  induction s with
  | nil => simp [isMatchFrom, Regex.run]
  | cons x xs ih => simp [isMatchFrom, Regex.run, ih]

/-- Negated emptiness of a list, as a proposition. -/
lemma bnot_isEmpty_iff {α : Type} (l : List α) : (!l.isEmpty) = true ↔ l ≠ [] := by
  cases l <;> simp

/-- The pattern `^NAME$` (for a literal NAME) matches exactly the name itself,
case-insensitively, and nothing else. -/
lemma isMatch_exactWord (cs : List Char) (s : String) :
    (exactWord cs).isMatch s = true ↔ s.data.map Char.toLower = cs.map Char.toLower := by
  unfold Regex.isMatch exactWord
  cases hs : s.data with
  | nil =>
    simp only [isMatchFrom]
    rw [show Regex.run (Regex.seq Regex.bol (litTail cs)) true [] =
        Regex.run (litTail cs) true [] by simp [Regex.run]]
    rw [bnot_isEmpty_iff]
    exact run_litTail cs true []
  | cons x xs =>
    simp only [isMatchFrom, isMatchFrom_bol_false, Bool.or_false]
    rw [show Regex.run (Regex.seq Regex.bol (litTail cs)) true (x :: xs) =
        Regex.run (litTail cs) true (x :: xs) by simp [Regex.run]]
    rw [bnot_isEmpty_iff]
    exact run_litTail cs true (x :: xs)

/-- Unfolding of `endsWithCI` on the empty haystack. -/
lemma endsWithCI_nil (w : List Char) :
    endsWithCI [] w = true ↔ ([] : List Char).map Char.toLower = w.map Char.toLower := by
  conv_lhs => rw [endsWithCI]
  by_cases h : ([] : List Char).map Char.toLower = w.map Char.toLower
  · rw [if_pos h]
    exact iff_of_true rfl h
  · rw [if_neg h]
    show false = true ↔ _
    simp only [Bool.false_eq_true, false_iff]
    exact h

/-- Unfolding of `endsWithCI` on a nonempty haystack. -/
lemma endsWithCI_cons (x : Char) (xs w : List Char) :
    endsWithCI (x :: xs) w = true ↔
      ((x :: xs).map Char.toLower = w.map Char.toLower ∨ endsWithCI xs w = true) := by
  conv_lhs => rw [endsWithCI]
  by_cases h : (x :: xs).map Char.toLower = w.map Char.toLower
  · rw [if_pos h]
    exact iff_of_true rfl (Or.inl h)
  · rw [if_neg h]
    show endsWithCI xs w = true ↔ _
    simp only [h, false_or]

/-- The body of a default suffix pattern `WORDc?$` consumes the whole
remaining haystack and matches exactly WORD or WORDc, case-insensitively. -/
lemma run_suffixWord (cs : List Char) (c : Char) : ∀ (a : Bool) (s : List Char),
    Regex.run (suffixWord cs c) a s ≠ [] ↔
      (s.map Char.toLower = cs.map Char.toLower ∨
        s.map Char.toLower = (cs ++ [c]).map Char.toLower) := by
  induction cs with
  | nil =>
    intro a s
    match s with
    | [] => simp [suffixWord, Regex.run]
    | [x] =>
      by_cases hx : x.toLower = c.toLower <;>
        simp [suffixWord, Regex.run, hx]
    | x :: y :: ys =>
      by_cases hx : x.toLower = c.toLower <;>
        simp [suffixWord, Regex.run, hx]
  | cons b bs ih =>
    intro a s
    cases s with
    | nil => simp [suffixWord, Regex.run]
    | cons x xs =>
      by_cases hx : x.toLower = b.toLower
      · simp [suffixWord, Regex.run, hx, ih, and_or_left]
      · simp [suffixWord, Regex.run, hx]

/-- A default suffix pattern matches anywhere in the name exactly when the
name ends (case-insensitively) with WORD or WORDc. -/
lemma isMatchFrom_suffixWord (cs : List Char) (c : Char) : ∀ (a : Bool) (s : List Char),
    isMatchFrom (suffixWord cs c) a s = true ↔
      (endsWithCI s cs = true ∨ endsWithCI s (cs ++ [c]) = true) := by
  intro a s
  induction s generalizing a with
  | nil =>
    simp only [isMatchFrom]
    rw [bnot_isEmpty_iff, run_suffixWord, endsWithCI_nil, endsWithCI_nil]
  | cons x xs ih =>
    simp only [isMatchFrom, Bool.or_eq_true]
    rw [bnot_isEmpty_iff, run_suffixWord, ih false, endsWithCI_cons, endsWithCI_cons]
    tauto

/-- String-level version of `isMatchFrom_suffixWord`. -/
lemma isMatch_suffixWord (cs : List Char) (c : Char) (s : String) :
    (suffixWord cs c).isMatch s = true ↔
      (endsWithCI s.data cs = true ∨ endsWithCI s.data (cs ++ [c]) = true) := by
  unfold Regex.isMatch
  exact isMatchFrom_suffixWord cs c true s.data

/-- The parser consumes a run of literal characters by pushing one
character atom per character. -/
lemma parseStep_literal : ∀ (cs : List Char), (∀ c ∈ cs, isLitChar c = true) →
    ∀ (tail : List Char) (g : PGroup) (stk : List PGroup),
      parseStep (cs ++ tail) g stk =
        parseStep tail ⟨g.branches, cs.reverse.map Regex.char ++ g.atoms⟩ stk := by
  intro cs
  induction cs with
  | nil => intro _ tail g stk; cases g; rfl
  | cons c cs ih =>
    intro h tail g stk
    have hc : isLitChar c = true := h c (by simp)
    have hum : unsupportedMeta c = false := by
      cases hb : unsupportedMeta c
      · rfl
      · rw [isLitChar, hb] at hc
        simp at hc
    simp only [isLitChar, hum, Bool.not_eq_true', Bool.or_eq_false_iff,
      decide_eq_false_iff_not] at hc
    obtain ⟨⟨⟨⟨⟨⟨⟨h1, h2⟩, h3⟩, h4⟩, h5⟩, h6⟩, h7⟩, _⟩ := hc
    rw [List.cons_append]
    rw [show parseStep (c :: (cs ++ tail)) g stk =
        parseStep (cs ++ tail) ⟨g.branches, Regex.char c :: g.atoms⟩ stk by
      simp only [parseStep, h1, h2, h3, h4, h5, h6, h7, hum, if_false,
        Bool.false_eq_true]]
    rw [ih (fun d hd => h d (by simp [hd])) tail ⟨g.branches, Regex.char c :: g.atoms⟩ stk]
    simp [List.reverse_cons, List.map_append, List.append_assoc]

/-- Folding the reversed character atoms reconstructs the name's
concatenation in order. -/
lemma foldl_rev_char (cs : List Char) :
    (cs.reverse.map Regex.char).foldl (fun r a => Regex.seq a r)
      (Regex.seq Regex.eol Regex.emp) = litTail cs := by
  induction cs with
  | nil => rfl
  | cons c cs ih =>
    simp only [List.reverse_cons, List.map_append, List.foldl_append, ih,
      List.map_cons, List.map_nil, List.foldl_cons, List.foldl_nil, litTail]

/-- Closing the parser state reached after `^NAME$` yields the anchored
word regex. -/
lemma closeGroup_anchored (cs : List Char) :
    closeGroup ⟨[], Regex.eol :: (cs.reverse.map Regex.char ++ [Regex.bol])⟩ =
      exactWord cs := by
  show closeConcat _ = _
  simp only [closeConcat, List.foldl_cons, List.foldl_append, List.foldl_nil]
  rw [show (Regex.seq Regex.eol Regex.emp) =
      (fun r a => Regex.seq a r) Regex.emp Regex.eol from rfl]
  rw [show ((cs.reverse.map Regex.char).foldl (fun r a => Regex.seq a r)
      ((fun r a => Regex.seq a r) Regex.emp Regex.eol)) = litTail cs from
    foldl_rev_char cs]
  rfl

/-- Compiling `^NAME$` for a literal NAME yields the anchored word regex. -/
lemma compileRegex_literal (n : String) (h : isLiteralName n = true) :
    compileRegex ("^" ++ n ++ "$") = Except.ok (exactWord n.data) := by
  unfold compileRegex
  have hdata : ("^" ++ n ++ "$").data = '^' :: (n.data ++ ['$']) := by
    rw [String.data_append, String.data_append]
    rfl
  rw [hdata]
  rw [show parseStep ('^' :: (n.data ++ ['$'])) ⟨[], []⟩ [] =
      parseStep (n.data ++ ['$']) ⟨[], [Regex.bol]⟩ [] from rfl]
  rw [parseStep_literal n.data (fun c hc => by
      unfold isLiteralName at h
      exact List.all_eq_true.mp h c hc) ['$'] ⟨[], [Regex.bol]⟩ []]
  rw [show parseStep ['$'] ⟨[], n.data.reverse.map Regex.char ++ [Regex.bol]⟩ [] =
      Except.ok (closeGroup ⟨[], Regex.eol ::
        (n.data.reverse.map Regex.char ++ [Regex.bol])⟩) from rfl]
  rw [closeGroup_anchored]

/-- Walking a rule list that starts with the keep rules of `keep`: for a
metacharacter-free name in `keep`, the walk either panics on an earlier
malformed pattern (changing nothing) or stops at a Keep rule (changing
nothing); the rules after the keep rules are never the first match. -/
lemma processKey_keep_none_or_id (keep : List String) (rest : List Rule) (n : String)
    (hk : n ∈ keep) (hlit : isLiteralName n = true) (rd : String) (ig : Bool) (e : Env) :
    processKey (keep.map mkKeepRule ++ rest) rd ig n e = none ∨
      processKey (keep.map mkKeepRule ++ rest) rd ig n e = some e := by
  induction keep with
  | nil => cases hk
  | cons m ms ih =>
    simp only [List.map_cons, List.cons_append]
    cases hre : compileRegex ("^" ++ m ++ "$") with
    | error msg => left; simp [processKey, mkKeepRule, hre]
    | ok re =>
      by_cases hm : re.isMatch n = true
      · right; simp [processKey, mkKeepRule, hre, hm, applyAction]
      · have hmn : n ∈ ms := by
          rcases List.mem_cons.mp hk with h | h
          · exfalso
            subst h
            rw [compileRegex_literal n hlit] at hre
            injection hre with hre
            subst hre
            exact hm ((isMatch_exactWord n.data n).mpr rfl)
          · exact h
        have hm' : re.isMatch n = false := by
          cases hb : re.isMatch n
          · rfl
          · exact absurd hb hm
        rw [show processKey (mkKeepRule m :: (ms.map mkKeepRule ++ rest)) rd ig n e =
            processKey (ms.map mkKeepRule ++ rest) rd ig n e by
          simp [processKey, mkKeepRule, hre, hm']]
        exact ih hmn

/-- When every pattern compiles the loop cannot panic: it always returns a
completed environment. -/
lemma filterLoop_no_panic (rules : List Rule) (rd : String) (ig : Bool)
    (hok : ∀ r ∈ rules, patternOk r = true) :
    ∀ (snap cur : Env), ∃ e, filterLoop rules rd ig snap cur = FilterOutcome.ok e := by
  intro snap
  induction snap with
  | nil => intro cur; exact ⟨cur, rfl⟩
  | cons p rest ih =>
    intro cur
    rcases p with ⟨k0, v0⟩
    cases k0 with
    | nonUtf8 i => exact ⟨cur, rfl⟩
    | utf8 k =>
      have hpk := processKey_eq_spec rules rd ig k cur hok
      obtain ⟨e, he⟩ := ih (specProcessKey rules rd ig k cur)
      exact ⟨e, by simp only [filterLoop, hpk]; exact he⟩

/-! ## Claim theorems -/

/-- C1: For every environment variable name `key` processed by the filter
engine, the first rule in the rule set whose pattern matches `key`
case-insensitively determines its fate and no later rule is consulted:
Keep leaves the variable unchanged; Unset removes it; Redact removes it
when `ignore_environment` is set and otherwise sets its value to the
redaction value; and if no rule matches, the variable is removed exactly
when `ignore_environment` is set.  (Stated for rule sets whose patterns all
compile, since a reached malformed pattern panics instead.) -/
theorem c1_first_match_wins (rules : List Rule) (redact : String) (ig : Bool)
    (key : String) (env : Env) (hok : ∀ r ∈ rules, patternOk r = true) :
    processKey rules redact ig key env =
      some (match firstMatchingRule rules key with
        | some r =>
          match r.action with
          | RuleAction.Keep => env
          | RuleAction.Unset => envRemove key env
          | RuleAction.Redact =>
            if ig then envRemove key env else envSet key redact env
        | none => if ig then envRemove key env else env) :=
  processKey_eq_spec rules redact ig key env hok

/-- Witness for C1: the default rules against `MY_API_KEY`. -/
theorem c1_first_match_wins_witness :
    (∀ r ∈ load_rules [] [], patternOk r = true) ∧
      processKey (load_rules [] []) "[REDACTED]" false "MY_API_KEY"
          [(OsKey.utf8 "MY_API_KEY", "abc123")] =
        some (match firstMatchingRule (load_rules [] []) "MY_API_KEY" with
          | some r =>
            match r.action with
            | RuleAction.Keep => [(OsKey.utf8 "MY_API_KEY", "abc123")]
            | RuleAction.Unset =>
              envRemove "MY_API_KEY" [(OsKey.utf8 "MY_API_KEY", "abc123")]
            | RuleAction.Redact =>
              if false then envRemove "MY_API_KEY" [(OsKey.utf8 "MY_API_KEY", "abc123")]
              else envSet "MY_API_KEY" "[REDACTED]" [(OsKey.utf8 "MY_API_KEY", "abc123")]
          | none =>
            if false then envRemove "MY_API_KEY" [(OsKey.utf8 "MY_API_KEY", "abc123")]
            else [(OsKey.utf8 "MY_API_KEY", "abc123")]) :=
  ⟨by decide, c1_first_match_wins (load_rules [] []) "[REDACTED]" false "MY_API_KEY"
    [(OsKey.utf8 "MY_API_KEY", "abc123")] (by decide)⟩

/-- C2: For every keep and unset input, the rule set is ordered as one Keep
rule per keep name, then one Unset rule per unset name, then the built-in
Redact rules, each group preserving input order; consequently, with
keepNames = ["FOO_SECRET"] and the default rules active, the variable
FOO_SECRET survives `apply_env_var_filters` unmodified even though a
default Redact pattern matches it. -/
theorem c2_order_and_precedence :
    (∀ keep unset : List String,
      load_rules keep unset =
        keep.map mkKeepRule ++ unset.map mkUnsetRule ++ defaultRules)
    ∧ (∀ (redact : String) (ig : Bool) (env : Env),
        filterKey "FOO_SECRET"
            ((apply_env_var_filters ⟨load_rules ["FOO_SECRET"] [], redact⟩ ig env).env) =
          filterKey "FOO_SECRET" env)
    ∧ defaultRules.any (fun r => ruleMatches r "FOO_SECRET") = true := by
  refine ⟨load_rules_eq, ?_, by decide⟩
  intro redact ig env
  have Hkey : ∀ e : Env,
      processKey (load_rules ["FOO_SECRET"] []) redact ig "FOO_SECRET" e = none ∨
      processKey (load_rules ["FOO_SECRET"] []) redact ig "FOO_SECRET" e = some e := by
    intro e
    right
    have h1 : compileRegex "^FOO_SECRET$" =
        Except.ok (exactWord "FOO_SECRET".data) := rfl
    have h2 : (exactWord "FOO_SECRET".data).isMatch "FOO_SECRET" = true := by decide
    rw [show load_rules ["FOO_SECRET"] [] = mkKeepRule "FOO_SECRET" :: defaultRules from rfl]
    simp [processKey, mkKeepRule, h1, h2, applyAction]
  exact filterLoop_frame _ redact ig "FOO_SECRET" Hkey env env

/-- C6: The engine applies actions against the frozen snapshot of names
taken before any mutation: the result is a fold over the initial
environment in which each name's decision (`firstMatchingRule`, inside
`specProcessKey`) depends only on the rule list and that name — so
deleting or redacting one variable never affects whether, or against which
rule, any other snapshot variable is evaluated.  (Stated for decodable
names and compilable patterns, where the loop runs to completion.) -/
theorem c6_snapshot_before_mutate (rules : List Rule) (redact : String) (ig : Bool)
    (env : Env) (hutf : ∀ p ∈ env, p.1.isUtf8 = true)
    (hok : ∀ r ∈ rules, patternOk r = true) :
    apply_env_var_filters ⟨rules, redact⟩ ig env =
      FilterOutcome.ok (env.foldl (stepSpec rules redact ig) env) :=
  filterLoop_all_ok rules redact ig hok env env hutf

/-- Witness for C6 at a concrete environment. -/
theorem c6_snapshot_before_mutate_witness :
    (∀ p ∈ [(OsKey.utf8 "PATH", "/bin"), (OsKey.utf8 "MY_TOKEN", "t")],
      p.1.isUtf8 = true) ∧
    (∀ r ∈ load_rules [] [], patternOk r = true) ∧
    apply_env_var_filters ⟨load_rules [] [], "[REDACTED]"⟩ false
        [(OsKey.utf8 "PATH", "/bin"), (OsKey.utf8 "MY_TOKEN", "t")] =
      FilterOutcome.ok
        ([(OsKey.utf8 "PATH", "/bin"), (OsKey.utf8 "MY_TOKEN", "t")].foldl
          (stepSpec (load_rules [] []) "[REDACTED]" false)
          [(OsKey.utf8 "PATH", "/bin"), (OsKey.utf8 "MY_TOKEN", "t")]) :=
  ⟨by decide, by decide,
    c6_snapshot_before_mutate (load_rules [] []) "[REDACTED]" false
      [(OsKey.utf8 "PATH", "/bin"), (OsKey.utf8 "MY_TOKEN", "t")]
      (by decide) (by decide)⟩

/-- C7: After the engine finishes (also at the moment of a panic), every
name's binding is in exactly one of three states relative to the starting
environment — unchanged, value replaced by the configured redaction value,
or absent — and the latter two happen only to names the starting
environment actually bound: no variable is added and no name is changed. -/
theorem c7_three_states (config : Config) (ig : Bool) (env : Env) (k : OsKey) :
    envLookup k ((apply_env_var_filters config ig env).env) = envLookup k env ∨
      (envLookup k ((apply_env_var_filters config ig env).env) = some config.redact_value ∧
        envLookup k env ≠ none) ∨
      (envLookup k ((apply_env_var_filters config ig env).env) = none ∧
        envLookup k env ≠ none) :=
  filterLoop_state config.rules config.redact_value ig env env env
    (fun p hp => envLookup_ne_none_of_mem p.1 p.2 env hp)
    (fun _ => Or.inl rfl) k

/-- C8: An explicit keep name behaves as an exact, case-insensitive match
on the whole variable name: the rule built for keep name `TOKEN` matches a
name exactly when its lowercase form is `token`, so the variable TOKEN is
kept in any letter case, while MY_TOKEN and TOKENS are not kept (here both
fall to a default Redact rule and are removed under ignore mode). -/
theorem c8_exact_case_insensitive :
    (∀ s : String, ruleMatches (mkKeepRule "TOKEN") s = true ↔
      s.data.map Char.toLower = ['t', 'o', 'k', 'e', 'n'])
    ∧ apply_env_var_filters ⟨load_rules ["TOKEN"] [], "[REDACTED]"⟩ true
        [(OsKey.utf8 "TOKEN", "a"), (OsKey.utf8 "tOkEn", "b"),
         (OsKey.utf8 "MY_TOKEN", "c"), (OsKey.utf8 "TOKENS", "d")] =
      FilterOutcome.ok [(OsKey.utf8 "TOKEN", "a"), (OsKey.utf8 "tOkEn", "b")] := by
  constructor
  · intro s
    show (exactWord "TOKEN".data).isMatch s = true ↔ _
    rw [isMatch_exactWord]
    rw [show "TOKEN".data.map Char.toLower = ['t', 'o', 'k', 'e', 'n'] from rfl]
  · decide

/-- C10: The built-in default patterns are anchored only at the end of the
name, so every name that merely ends, case-insensitively, in SECRET(S),
TOKEN(S), KEY(S) or PASSWORD(S) is matched by a default Redact rule and —
with `ignore_environment` off — has its value set to the redaction value;
in particular MONKEY and DONKEYS are redacted although no separator
precedes the suffix. -/
theorem c10_suffix_only_anchoring :
    (∀ (s : String) (env : Env) (redact : String),
      (endsWithCI s.data "SECRET".data || endsWithCI s.data "SECRETS".data ||
       endsWithCI s.data "TOKEN".data || endsWithCI s.data "TOKENS".data ||
       endsWithCI s.data "KEY".data || endsWithCI s.data "KEYS".data ||
       endsWithCI s.data "PASSWORD".data || endsWithCI s.data "PASSWORDS".data) = true →
        processKey (load_rules [] []) redact false s env = some (envSet s redact env))
    ∧ apply_env_var_filters ⟨load_rules [] [], "[REDACTED]"⟩ false
        [(OsKey.utf8 "MONKEY", "a"), (OsKey.utf8 "DONKEYS", "b")] =
      FilterOutcome.ok
        [(OsKey.utf8 "MONKEY", "[REDACTED]"), (OsKey.utf8 "DONKEYS", "[REDACTED]")] := by
  constructor
  · intro s env redact h
    show processKey defaultRules redact false s env = some (envSet s redact env)
    have e1 : compileRegex "SECRETS?$" = Except.ok (suffixWord "SECRET".data 'S') := rfl
    have e2 : compileRegex "TOKENS?$" = Except.ok (suffixWord "TOKEN".data 'S') := rfl
    have e3 : compileRegex "KEYS?$" = Except.ok (suffixWord "KEY".data 'S') := rfl
    have e4 : compileRegex "PASSWORDS?$" = Except.ok (suffixWord "PASSWORD".data 'S') := rfl
    have m1 := isMatch_suffixWord "SECRET".data 'S' s
    have m2 := isMatch_suffixWord "TOKEN".data 'S' s
    have m3 := isMatch_suffixWord "KEY".data 'S' s
    have m4 := isMatch_suffixWord "PASSWORD".data 'S' s
    rw [show "SECRET".data ++ ['S'] = "SECRETS".data from rfl] at m1
    rw [show "TOKEN".data ++ ['S'] = "TOKENS".data from rfl] at m2
    rw [show "KEY".data ++ ['S'] = "KEYS".data from rfl] at m3
    rw [show "PASSWORD".data ++ ['S'] = "PASSWORDS".data from rfl] at m4
    by_cases h1 : (suffixWord "SECRET".data 'S').isMatch s = true
    · simp [defaultRules, processKey, e1, h1, applyAction]
    · have h1' : (suffixWord "SECRET".data 'S').isMatch s = false :=
        Bool.eq_false_iff.mpr h1
      by_cases h2 : (suffixWord "TOKEN".data 'S').isMatch s = true
      · simp [defaultRules, processKey, e1, e2, h1', h2, applyAction]
      · have h2' : (suffixWord "TOKEN".data 'S').isMatch s = false :=
          Bool.eq_false_iff.mpr h2
        by_cases h3 : (suffixWord "KEY".data 'S').isMatch s = true
        · simp [defaultRules, processKey, e1, e2, e3, h1', h2', h3, applyAction]
        · have h3' : (suffixWord "KEY".data 'S').isMatch s = false :=
            Bool.eq_false_iff.mpr h3
          by_cases h4 : (suffixWord "PASSWORD".data 'S').isMatch s = true
          · simp [defaultRules, processKey, e1, e2, e3, e4, h1', h2', h3', h4, applyAction]
          · exfalso
            have n1 : ¬(endsWithCI s.data "SECRET".data = true ∨
                endsWithCI s.data "SECRETS".data = true) := fun hc => h1 (m1.mpr hc)
            have n2 : ¬(endsWithCI s.data "TOKEN".data = true ∨
                endsWithCI s.data "TOKENS".data = true) := fun hc => h2 (m2.mpr hc)
            have n3 : ¬(endsWithCI s.data "KEY".data = true ∨
                endsWithCI s.data "KEYS".data = true) := fun hc => h3 (m3.mpr hc)
            have n4 : ¬(endsWithCI s.data "PASSWORD".data = true ∨
                endsWithCI s.data "PASSWORDS".data = true) := fun hc => h4 (m4.mpr hc)
            simp only [Bool.or_eq_true] at h
            rcases h with ((((((hA | hB) | hC) | hD) | hE) | hF) | hG) | hH
            · exact n1 (Or.inl hA)
            · exact n1 (Or.inr hB)
            · exact n2 (Or.inl hC)
            · exact n2 (Or.inr hD)
            · exact n3 (Or.inl hE)
            · exact n3 (Or.inr hF)
            · exact n4 (Or.inl hG)
            · exact n4 (Or.inr hH)
  · decide

/-- Witness for C10's universal part: MONKEY ends in KEY and is redacted. -/
theorem c10_suffix_only_anchoring_witness :
    (endsWithCI "MONKEY".data "SECRET".data || endsWithCI "MONKEY".data "SECRETS".data ||
     endsWithCI "MONKEY".data "TOKEN".data || endsWithCI "MONKEY".data "TOKENS".data ||
     endsWithCI "MONKEY".data "KEY".data || endsWithCI "MONKEY".data "KEYS".data ||
     endsWithCI "MONKEY".data "PASSWORD".data ||
     endsWithCI "MONKEY".data "PASSWORDS".data) = true ∧
    processKey (load_rules [] []) "[REDACTED]" false "MONKEY"
        [(OsKey.utf8 "MONKEY", "a")] =
      some (envSet "MONKEY" "[REDACTED]" [(OsKey.utf8 "MONKEY", "a")]) :=
  ⟨by decide, c10_suffix_only_anchoring.1 "MONKEY" [(OsKey.utf8 "MONKEY", "a")]
    "[REDACTED]" (by decide)⟩

/-- C3 (code-bug evidence): on the first name that fails to decode, the
loop executes `break` — despite its own log line saying "Skip" — so the
remaining variables are left unprocessed.  Here the second variable
MY_TOKEN has a matching default Redact rule, yet the whole environment
comes back untouched. -/
theorem c3_decode_failure_aborts_pass :
    apply_env_var_filters ⟨load_rules [] [], "[REDACTED]"⟩ false
        [(OsKey.nonUtf8 0, "v"), (OsKey.utf8 "MY_TOKEN", "t")] =
      FilterOutcome.ok [(OsKey.nonUtf8 0, "v"), (OsKey.utf8 "MY_TOKEN", "t")]
    ∧ (firstMatchingRule (load_rules [] []) "MY_TOKEN").map (fun r => r.action) =
      some RuleAction.Redact :=
  ⟨rfl, by decide⟩

/-- Counterexample to C4 as stated: with unset names ["A", "("], the pattern
`^($` fails to compile, yet variable A has already been removed by the time
the panic happens — the environment is not left untouched and the error is
not reported before mutation. -/
theorem c4_counterexample :
    (∃ r ∈ load_rules [] ["A", "("], patternOk r = false)
    ∧ apply_env_var_filters ⟨load_rules [] ["A", "("], "[REDACTED]"⟩ false
        [(OsKey.utf8 "A", "x"), (OsKey.utf8 "B", "y")] =
      FilterOutcome.panic [(OsKey.utf8 "B", "y")]
    ∧ [(OsKey.utf8 "B", "y")] ≠ [(OsKey.utf8 "A", "x"), (OsKey.utf8 "B", "y")] :=
  ⟨⟨mkUnsetRule "(", by decide, by decide⟩, by decide, by decide⟩

/-- C4 (amended): a pattern that fails to compile panics only at the point
it is first consulted during filtering — the process then exits nonzero
without launching a child — but patterns are compiled lazily, so variables
processed before that point keep their mutations; when every pattern
compiles, the engine never panics. -/
theorem c4_lazy_compile_panic :
    (∀ (rules : List Rule) (redact : String) (ig : Bool) (env : Env),
      (∀ r ∈ rules, patternOk r = true) →
        ∃ e, apply_env_var_filters ⟨rules, redact⟩ ig env = FilterOutcome.ok e)
    ∧ apply_env_var_filters ⟨load_rules [] ["A", "("], "[REDACTED]"⟩ false
        [(OsKey.utf8 "A", "x"), (OsKey.utf8 "B", "y")] =
      FilterOutcome.panic [(OsKey.utf8 "B", "y")] := by
  constructor
  · intro rules redact ig env hok
    exact filterLoop_no_panic rules redact ig hok env env
  · decide

/-- Witness for C4 (amended): with the default rules every pattern
compiles, and filtering completes without a panic. -/
theorem c4_lazy_compile_panic_witness :
    (∀ r ∈ load_rules [] [], patternOk r = true) ∧
    (∃ e, apply_env_var_filters ⟨load_rules [] [], "[REDACTED]"⟩ false
      [(OsKey.utf8 "A", "x")] = FilterOutcome.ok e) :=
  ⟨by decide, c4_lazy_compile_panic.1 (load_rules [] []) "[REDACTED]" false
    [(OsKey.utf8 "A", "x")] (by decide)⟩

/-- C5 (code-bug evidence): the builder does not escape regex
metacharacters, so the rule built for keep name FOO.BAR matches FOOXBAR,
which is consequently kept (here under ignore mode, where an unmatched
variable would have been removed). -/
theorem c5_unescaped_metacharacters :
    ruleMatches (mkKeepRule "FOO.BAR") "FOOXBAR" = true
    ∧ apply_env_var_filters ⟨load_rules ["FOO.BAR"] [], "[REDACTED]"⟩ true
        [(OsKey.utf8 "FOOXBAR", "v")] =
      FilterOutcome.ok [(OsKey.utf8 "FOOXBAR", "v")] :=
  ⟨by decide, by decide⟩

/-- Counterexample to C9 as stated: the name `A?` appears in both the keep
and the unset list, but because the unescaped pattern `^A?$` does not match
the name `A?` itself, neither rule fires and under ignore mode the variable
is removed rather than left untouched. -/
theorem c9_counterexample :
    apply_env_var_filters ⟨load_rules ["A?"] ["A?"], "[REDACTED]"⟩ true
        [(OsKey.utf8 "A?", "v")] = FilterOutcome.ok []
    ∧ filterKey "A?" ([] : Env) ≠ filterKey "A?" [(OsKey.utf8 "A?", "v")] :=
  ⟨by decide, by decide⟩

/-- C9 (amended): for every name free of regex metacharacters that appears
in both the keep and the unset lists, the variable of that name is left
untouched by `apply_env_var_filters`: its Keep rule precedes every Unset
rule, and first-match-wins dispatch means the Unset rule is never
reached. -/
theorem c9_keep_beats_unset (keep unset : List String) (n : String)
    (hk : n ∈ keep) (hu : n ∈ unset) (hlit : isLiteralName n = true)
    (redact : String) (ig : Bool) (env : Env) :
    filterKey n ((apply_env_var_filters ⟨load_rules keep unset, redact⟩ ig env).env) =
      filterKey n env := by
  have Hkey : ∀ e : Env,
      processKey (load_rules keep unset) redact ig n e = none ∨
      processKey (load_rules keep unset) redact ig n e = some e := by
    intro e
    rw [load_rules_eq, List.append_assoc]
    exact processKey_keep_none_or_id keep (unset.map mkUnsetRule ++ defaultRules) n
      hk hlit redact ig e
  exact filterLoop_frame _ redact ig n Hkey env env

/-- Witness for C9 (amended): FOO in both lists survives apply. -/
theorem c9_keep_beats_unset_witness :
    "FOO" ∈ ["FOO"] ∧ isLiteralName "FOO" = true ∧
    filterKey "FOO"
        ((apply_env_var_filters ⟨load_rules ["FOO"] ["FOO"], "[REDACTED]"⟩ true
          [(OsKey.utf8 "FOO", "v"), (OsKey.utf8 "BAR", "b")]).env) =
      filterKey "FOO" [(OsKey.utf8 "FOO", "v"), (OsKey.utf8 "BAR", "b")] :=
  ⟨by decide, by decide,
    c9_keep_beats_unset ["FOO"] ["FOO"] "FOO" (by decide) (by decide) (by decide)
      "[REDACTED]" true [(OsKey.utf8 "FOO", "v"), (OsKey.utf8 "BAR", "b")]⟩
